import Mathlib

/-!
Shallow embedding of the whaleflow backend (backfill.py, ingest.py,
metrics.py) and proofs of the specification claims about it.

Conventions of the embedding:
* machine integers and millisecond timestamps are `Nat`;
* SQL `numeric` values and Python floats are `ℚ`;
* SQL `NULL` / pandas `NaN` are `Option.none`;
* database tables are fields of a `DB` record; keyed tables are modelled
  as functions from the key to `Option row`;
* the HTTP upstream is an oracle passed to the functions that call it.
-/

namespace Whaleflow

/-- A Binance aggTrades record as returned by the API: `a` = aggregate
trade id, `p` = price, `q` = quantity, `T` = event time in ms, `m` = the
buyer-is-maker flag (backfill.py reads exactly these keys). -/
structure RawTrade where
  a : Nat
  p : ℚ
  q : ℚ
  T : Nat
  m : Bool
deriving DecidableEq

/-- `BUCKET_MS = 5 * 60 * 1000` from backfill.py. -/
def BUCKET_MS : Nat := 5 * 60 * 1000

/-- `ms_to_bucket_dt`: floor of an event time to its 5-minute bucket
(backfill.py line 65); the bucket is kept in ms rather than as a datetime. -/
def ms_to_bucket_ms (ms : Nat) : Nat := ms / BUCKET_MS * BUCKET_MS

/-- A row of the `market_trades` table (init_db.py): primary key
`(chain, trade_id)`. -/
structure TradeRow where
  chain : String
  trade_id : Nat
  event_ms : Nat
  bucket_ms : Nat
  price : ℚ
  quantity : ℚ
  is_sell_maker : Bool
deriving DecidableEq

/-- The row `insert_trades` builds from a raw trade (backfill.py 117-129). -/
def rowOfRaw (chain : String) (t : RawTrade) : TradeRow :=
  ⟨chain, t.a, t.T, ms_to_bucket_ms t.T, t.p, t.q, t.m⟩

/-- Whether the table already holds a row with key `(chain, id)`. -/
def keyMem (tbl : List TradeRow) (chain : String) (id : Nat) : Bool :=
  tbl.any (fun r => r.chain == chain && r.trade_id == id)

/-- Number of rows with key `(chain, id)` in the table. -/
def countKey (tbl : List TradeRow) (chain : String) (id : Nat) : Nat :=
  (tbl.filter (fun r => r.chain == chain && r.trade_id == id)).length

/-- The row-by-row effect of `INSERT ... ON CONFLICT (chain, trade_id)
DO NOTHING RETURNING 1`: conflicting rows (against the table or against a
row inserted earlier in the same statement) are skipped and not counted. -/
def insertAux (chain : String) : List TradeRow → Nat → List RawTrade → List TradeRow × Nat
  | tbl, n, [] => (tbl, n)
  | tbl, n, t :: rest =>
    if keyMem tbl chain t.a then insertAux chain tbl n rest
    else insertAux chain (tbl ++ [rowOfRaw chain t]) (n + 1) rest

/-- `insert_trades` (backfill.py 115-148): inserts the fetched trades with
insert-or-ignore dedup and returns the new table plus the number of rows
actually inserted (`len(cur.fetchall())` of the `RETURNING 1` rows). -/
def insert_trades (tbl : List TradeRow) (chain : String) (raws : List RawTrade) :
    List TradeRow × Nat :=
  insertAux chain tbl 0 raws

/-- Outcome of one HTTP GET against the aggTrades endpoint. -/
inductive BinanceResp where
  | rateLimited
  | netError
  | ok (payload : List RawTrade)
deriving DecidableEq

/-- `wait_s = min(1.5 * (attempt + 1), 6.0)` (backfill.py 162 and 174). -/
def backoffSeconds (attempt : Nat) : ℚ := min (3 / 2 * ((attempt : ℚ) + 1)) 6

/-- The `for attempt in range(5)` retry loop of `binance_get_with_retry`
(backfill.py 151-176), structurally recursive on the remaining attempts.
`resps i` is the response to the `i`-th request.  The result pairs the
returned payload (`none` when the final ClientError is re-raised) with the
number of requests issued. -/
def retryFrom (resps : Nat → BinanceResp) (attempt : Nat) :
    Nat → Option (List RawTrade) × Nat
  | 0 => (some [], attempt)
  | remaining + 1 =>
    match resps attempt with
    | .rateLimited => retryFrom resps (attempt + 1) remaining
    | .netError =>
      if attempt = 4 then (none, attempt + 1)
      else retryFrom resps (attempt + 1) remaining
    | .ok payload => (some payload, attempt + 1)

/-- `binance_get_with_retry`: five attempts starting at attempt 0; falling
out of the loop returns an empty list (backfill.py line 176). -/
def binance_get_with_retry (resps : Nat → BinanceResp) :
    Option (List RawTrade) × Nat :=
  retryFrom resps 0 5

/-- One request issued by `fetch_agg_trades_window`: either the initial
time-bounded request or a trade-id continuation request. -/
inductive FetchReq where
  | byTime (startMs endMs : Nat)
  | byId (fromId : Nat)
deriving DecidableEq

/-- Server model for the time-bounded first page: the first up-to-1000
trades of the ledger whose event time lies in `[s, e]`, in ledger order. -/
def pageTime (L : List RawTrade) (s e : Nat) : List RawTrade :=
  (L.filter (fun t => decide (s ≤ t.T) && decide (t.T ≤ e))).take 1000

/-- Server model for a `fromId` page: the first up-to-1000 trades with
trade id at least `fid`, in ledger order. -/
def pageFrom (L : List RawTrade) (fid : Nat) : List RawTrade :=
  (L.filter (fun t => decide (fid ≤ t.a))).take 1000

/-- The `for trade in batch` body of `fetch_agg_trades_window`
(backfill.py 216-223): skip trades before the window, stop at the first
trade past the window end (setting `reached_end`), keep the rest. -/
def collectBatch (s e : Nat) : List RawTrade → List RawTrade × Bool
  | [] => ([], false)
  | t :: rest =>
    if t.T < s then collectBatch s e rest
    else if e < t.T then ([], true)
    else
      let res := collectBatch s e rest
      (t :: res.1, res.2)

/-- `batch[-1]["a"]`: trade id of the last element (0 on the empty list,
which the code never queries). -/
def lastA : List RawTrade → Nat
  | [] => 0
  | [t] => t.a
  | _ :: rest => lastA rest

/-- The `while True` continuation loop of `fetch_agg_trades_window`
(backfill.py 203-227), fuelled for structural recursion; alongside the
collected trades it records the requests issued. -/
def fetchLoop (L : List RawTrade) (s e : Nat) :
    Nat → Nat → List RawTrade × List FetchReq
  | 0, _ => ([], [])
  | fuel + 1, lastId =>
    let batch := pageFrom L (lastId + 1)
    if batch = [] then ([], [FetchReq.byId (lastId + 1)])
    else
      let res := collectBatch s e batch
      if res.2 || decide (batch.length < 1000) then
        (res.1, [FetchReq.byId (lastId + 1)])
      else
        let next := fetchLoop L s e fuel (lastA batch)
        (res.1 ++ next.1, FetchReq.byId (lastId + 1) :: next.2)

/-- `fetch_agg_trades_window` (backfill.py 179-229): a first time-bounded
page, then trade-id continuation pages from `last_trade_id + 1` until a
page is empty, a trade's time exceeds the window end, or a page is short.
Returns the collected trades and the trace of requests issued.  The fuel
`L.length + 1` is an upper bound on the number of continuation pages, so
for any finite ledger the loop is never cut off by it. -/
def fetch_agg_trades_window (L : List RawTrade) (s e : Nat) :
    List RawTrade × List FetchReq :=
  let fb := pageTime L s e
  if fb = [] then ([], [FetchReq.byTime s e])
  else
    let next := fetchLoop L s e (L.length + 1) (lastA fb)
    (fb ++ next.1, FetchReq.byTime s e :: next.2)

/-- A row of the `flow_buckets` table (init_db.py): numeric flows plus
integer whale/tx counts, keyed by `(chain, bucket_ts)`. -/
structure FlowRow where
  exchange_inflow : ℚ
  exchange_outflow : ℚ
  net_flow : ℚ
  whale_volume : ℚ
  whale_count : Nat
  tx_count : Nat
deriving DecidableEq

/-- A row of `price_buckets_chain` / `price_buckets` (init_db.py):
`return_5m` is nullable. -/
structure PriceRow where
  close : ℚ
  return_5m : Option ℚ
deriving DecidableEq

/-- The database state touched by the pipeline.  Keyed tables are
functions from key to optional row; bucket keys are epoch-ms bucket
starts; `backfill_state` is restricted to the single dataset
`binance_agg_trades_v1` the code uses, so it is keyed by chain alone. -/
structure DB where
  market_trades : List TradeRow
  backfill_state : String → Option Nat
  whale_thresholds : String → Option ℚ
  flow_buckets : String × Nat → Option FlowRow
  price_buckets_chain : String × Nat → Option PriceRow
  price_buckets : Nat → Option PriceRow

/-- Rows of `market_trades` belonging to one chain (`WHERE chain = %s`). -/
def chainTrades (tbl : List TradeRow) (chain : String) : List TradeRow :=
  tbl.filter (fun r => r.chain == chain)

/-- Rows of one chain falling in one bucket (`GROUP BY chain, bucket_ts`). -/
def bucketTrades (tbl : List TradeRow) (chain : String) (b : Nat) : List TradeRow :=
  (chainTrades tbl chain).filter (fun r => r.bucket_ms == b)

/-- Whether some ledger row of the chain falls in bucket `b`. -/
def hasBucket (tbl : List TradeRow) (chain : String) (b : Nat) : Bool :=
  (chainTrades tbl chain).any (fun r => r.bucket_ms == b)

/-- PostgreSQL `percentile_cont(p) WITHIN GROUP (ORDER BY x)`: sort the
values ascending and linearly interpolate at rank `p * (n - 1)`;
`none` on the empty multiset (SQL NULL). -/
def percentileCont (p : ℚ) (xs : List ℚ) : Option ℚ :=
  match xs with
  | [] => none
  | _ =>
    let s := xs.insertionSort (· ≤ ·)
    let rn : ℚ := p * ((xs.length : ℚ) - 1)
    let f : ℤ := ⌊rn⌋
    let c : ℤ := ⌈rn⌉
    let fv := s.getD f.toNat 0
    let cv := s.getD c.toNat 0
    some (if f = c then fv else ((c : ℚ) - rn) * fv + (rn - (f : ℚ)) * cv)

/-- The threshold value `upsert_chain_threshold` stores: the 99th
percentile of the chain's trade quantities, coalesced to 0 when the chain
has no trades (backfill.py 232-250). -/
def thresholdOf (tbl : List TradeRow) (chain : String) : ℚ :=
  (percentileCont (99 / 100) ((chainTrades tbl chain).map (·.quantity))).getD 0

/-- `upsert_chain_threshold` (backfill.py 232-250): full replace of the
chain's single `whale_thresholds` row. -/
def upsert_chain_threshold (db : DB) (chain : String) : DB :=
  { db with whale_thresholds := fun c =>
      if c = chain then some (thresholdOf db.market_trades chain)
      else db.whale_thresholds c }

/-- The `agg` CTE of `materialize_flow_buckets` for one bucket
(backfill.py 262-275): per-group sums with the maker flag deciding the
flow direction and the inclusive `quantity >= threshold` whale test. -/
def flowAgg (tbl : List TradeRow) (chain : String) (th : ℚ) (b : Nat) : FlowRow :=
  let g := bucketTrades tbl chain b
  { exchange_inflow := (g.map (fun r => if r.is_sell_maker then 0 else r.quantity)).sum
  , exchange_outflow := (g.map (fun r => if r.is_sell_maker then r.quantity else 0)).sum
  , net_flow := (g.map (fun r => if r.is_sell_maker then r.quantity else -r.quantity)).sum
  , whale_volume := (g.map (fun r => if th ≤ r.quantity then r.quantity else 0)).sum
  , whale_count := (g.filter (fun r => decide (th ≤ r.quantity))).length
  , tx_count := g.length }

/-- `materialize_flow_buckets` (backfill.py 253-295): reads the current
threshold with `COALESCE(..., 0)` and insert-or-overwrites exactly the
`(chain, bucket_ts)` keys produced by the `agg` grouping. -/
def materialize_flow_buckets (db : DB) (chain : String) : DB :=
  let th := (db.whale_thresholds chain).getD 0
  { db with flow_buckets := fun k =>
      if k.1 = chain ∧ hasBucket db.market_trades chain k.2 = true then
        some (flowAgg db.market_trades chain th k.2)
      else db.flow_buckets k }

/-- `ORDER BY event_ts DESC, trade_id DESC` rank test: `r` ranks strictly
later than `s`. -/
def tradeLater (r s : TradeRow) : Bool :=
  decide (s.event_ms < r.event_ms) ||
    (s.event_ms == r.event_ms && decide (s.trade_id < r.trade_id))

/-- The `rn = 1` row of the `ranked` CTE: the trade of the group with the
latest event time, ties broken by the highest trade id. -/
def lastTradeOf (g : List TradeRow) : Option TradeRow :=
  g.foldl
    (fun acc r =>
      match acc with
      | none => some r
      | some s => if tradeLater r s then some r else some s)
    none

/-- Close price of one bucket: the price of its last trade (the guarding 0
is never read, since the bucket list only holds inhabited buckets). -/
def closeOf (tbl : List TradeRow) (chain : String) (b : Nat) : ℚ :=
  match lastTradeOf (bucketTrades tbl chain b) with
  | some r => r.price
  | none => 0

/-- The distinct bucket timestamps of the chain, ascending — the partition
keys of the `ranked` CTE in the order the `LAG` window visits them. -/
def bucketList (tbl : List TradeRow) (chain : String) : List Nat :=
  (((chainTrades tbl chain).map (·.bucket_ms)).dedup).insertionSort (· ≤ ·)

/-- The `closes` CTE: `(timestamp, close)` per bucket, ascending. -/
def closesList (tbl : List TradeRow) (chain : String) : List (Nat × ℚ) :=
  (bucketList tbl chain).map (fun b => (b, closeOf tbl chain b))

/-- The `CASE` expression computing `return_5m` from the lagged close
(backfill.py 325-331): NULL without a predecessor, NULL on a zero
predecessor, otherwise `(close - prev) / |prev|`. -/
def retCalc (prev : Option ℚ) (close : ℚ) : Option ℚ :=
  match prev with
  | none => none
  | some p => if p = 0 then none else some ((close - p) / |p|)

/-- The `with_returns` CTE: thread the lagged close through the ordered
close series. -/
def attachReturns (prev : Option ℚ) : List (Nat × ℚ) → List (Nat × ℚ × Option ℚ)
  | [] => []
  | (t, c) :: rest => (t, c, retCalc prev c) :: attachReturns (some c) rest

/-- The full row set `materialize_price_buckets_chain` computes for one
chain: `(timestamp, close, return_5m)` ascending by timestamp. -/
def priceRows (tbl : List TradeRow) (chain : String) : List (Nat × ℚ × Option ℚ) :=
  attachReturns none (closesList tbl chain)

/-- `materialize_price_buckets_chain` (backfill.py 298-343):
insert-or-overwrite of exactly the chain's computed bucket rows. -/
def materialize_price_buckets_chain (db : DB) (chain : String) : DB :=
  let rows := priceRows db.market_trades chain
  { db with price_buckets_chain := fun k =>
      if k.1 = chain then
        match rows.find? (fun x => x.1 == k.2) with
        | some row => some ⟨row.2.1, row.2.2⟩
        | none => db.price_buckets_chain k
      else db.price_buckets_chain k }

/-- `sync_eth_into_legacy_price_buckets` (backfill.py 346-358): copy the
eth rows of `price_buckets_chain` into the legacy table. -/
def sync_eth_into_legacy_price_buckets (db : DB) : DB :=
  { db with price_buckets := fun t =>
      match db.price_buckets_chain ("eth", t) with
      | some row => some row
      | none => db.price_buckets t }

/-- `materialize_chain` (backfill.py 361-374): threshold, flow buckets,
price buckets, and for eth the legacy sync, in one committed run. -/
def materialize_chain (db : DB) (chain : String) : DB :=
  let d1 := upsert_chain_threshold db chain
  let d2 := materialize_flow_buckets d1 chain
  let d3 := materialize_price_buckets_chain d2 chain
  if chain = "eth" then sync_eth_into_legacy_price_buckets d3 else d3

/-- `update_checkpoint` (backfill.py 101-112): upsert of the chain's
cursor for the fixed dataset key. -/
def update_checkpoint (db : DB) (chain : String) (cursor_ms : Nat) : DB :=
  { db with backfill_state := fun c =>
      if c = chain then some cursor_ms else db.backfill_state c }

/-- One chunk transaction of `ingest_chain` (backfill.py 418-426): trade
inserts and checkpoint advance commit together; `ok cursor = false` means
the transaction fails, so neither effect persists and the run aborts. -/
def chunkTxn (fetch : Nat → Nat → List RawTrade) (ok : Nat → Bool)
    (chain : String) (db : DB) (cursor chunkEnd : Nat) : Option DB :=
  if ok cursor then
    some (update_checkpoint
      { db with market_trades := (insert_trades db.market_trades chain (fetch cursor chunkEnd)).1 }
      chain chunkEnd)
  else none

/-- The `while cursor < now_ms` chunk loop of `ingest_chain`
(backfill.py 411-444), fuelled; one fuel unit per chunk, which suffices
whenever `fuel ≥ nowMs - cursor` and the chunk size is positive. -/
def ingestLoop (fetch : Nat → Nat → List RawTrade) (ok : Nat → Bool)
    (chain : String) (nowMs chunkMs : Nat) :
    Nat → Nat → DB → DB
  | 0, _, db => db
  | fuel + 1, cursor, db =>
    if cursor < nowMs then
      match chunkTxn fetch ok chain db cursor (min (cursor + chunkMs - 1) nowMs) with
      | none => db
      | some db2 =>
        ingestLoop fetch ok chain nowMs chunkMs fuel
          (min (cursor + chunkMs - 1) nowMs + 1) db2
    else db

/-- The resume position `max(start_default, checkpoint + 1)` of
`ingest_chain` (backfill.py 384-387). -/
def resumeStartOf (startDefault : Nat) (cp : Option Nat) : Nat :=
  match cp with
  | none => startDefault
  | some c => max startDefault (c + 1)

/-- The computed actual start of a backfill run for a chain. -/
def computeStart (db : DB) (chain : String) (days nowMs : Nat) : Nat :=
  resumeStartOf (nowMs - days * 24 * 60 * 60 * 1000) (db.backfill_state chain)

/-- `ingest_chain` (backfill.py 377-444): resume from the checkpoint,
return immediately when the range is already covered, otherwise run the
chunk loop with `chunk_ms = max(1, chunk_minutes) * 60 * 1000`. -/
def ingest_chain (fetch : Nat → Nat → List RawTrade) (ok : Nat → Bool)
    (chain : String) (days chunkMinutes nowMs : Nat) (db : DB) : DB :=
  let startMs := computeStart db chain days nowMs
  if nowMs ≤ startMs then db
  else
    ingestLoop fetch ok chain nowMs ((max 1 chunkMinutes) * 60 * 1000)
      (nowMs - startMs) startMs db

/-- The reference effect of the first `k` successful chunk transactions on
the trade table, chunk `j` spanning
`[cursor + j * chunkMs, cursor + (j + 1) * chunkMs - 1]`. -/
def foldChunks (fetch : Nat → Nat → List RawTrade) (chain : String) (chunkMs : Nat) :
    Nat → Nat → List TradeRow → List TradeRow
  | 0, _, tbl => tbl
  | k + 1, cursor, tbl =>
    foldChunks fetch chain chunkMs k (cursor + chunkMs)
      (insert_trades tbl chain (fetch cursor (cursor + chunkMs - 1))).1

/-- The whole-database effect of the first `k` successful chunks: trade
inserts plus checkpoint advance per chunk. -/
def applyChunks (fetch : Nat → Nat → List RawTrade) (chain : String) (chunkMs : Nat) :
    Nat → Nat → DB → DB
  | 0, _, db => db
  | k + 1, cursor, db =>
    applyChunks fetch chain chunkMs k (cursor + chunkMs)
      (update_checkpoint
        { db with market_trades :=
            (insert_trades db.market_trades chain (fetch cursor (cursor + chunkMs - 1))).1 }
        chain (cursor + chunkMs - 1))

/-- Componentwise addition of flow rows: the `DO UPDATE SET ... + EXCLUDED`
arm of the live poller's upsert (ingest.py 71-78). -/
def addFlow (old inc : FlowRow) : FlowRow :=
  { exchange_inflow := old.exchange_inflow + inc.exchange_inflow
  , exchange_outflow := old.exchange_outflow + inc.exchange_outflow
  , net_flow := old.net_flow + inc.net_flow
  , whale_volume := old.whale_volume + inc.whale_volume
  , whale_count := old.whale_count + inc.whale_count
  , tx_count := old.tx_count + inc.tx_count }

/-- One row of the live poller's `executemany` upsert: insert the
contribution, or add it onto the existing row for the key. -/
def upsertBucketRow (tbl : String × Nat → Option FlowRow)
    (chain : String) (b : Nat) (r : FlowRow) : String × Nat → Option FlowRow :=
  fun k =>
    if k = (chain, b) then
      some (match tbl (chain, b) with
        | none => r
        | some old => addFlow old r)
    else tbl k

/-- `upsert_bucket_stats` (ingest.py 57-85): sequential additive upserts
of the tick's per-bucket contributions. -/
def upsert_bucket_stats (tbl : String × Nat → Option FlowRow)
    (rows : List (String × Nat × FlowRow)) : String × Nat → Option FlowRow :=
  rows.foldl (fun t row => upsertBucketRow t row.1 row.2.1 row.2.2) tbl

/-- An eth transaction as seen by the live loop: value in wei plus sender
and receiver addresses (already lowercased). -/
structure EthTx where
  value_wei : Nat
  sender : String
  receiver : String

/-- The per-block accumulator of `eth_live_loop` (ingest.py 142-146). -/
structure LiveAcc where
  exchange_inflow : ℚ
  exchange_outflow : ℚ
  whale_volume : ℚ
  whale_count : Nat
  tx_count : Nat

/-- The per-transaction classification of `eth_live_loop`
(ingest.py 148-160): exchange membership decides in/outflow, the
inclusive threshold test decides whale status, every tx counts. -/
def ethTxStep (exchanges : List String) (th : ℚ) (acc : LiveAcc) (tx : EthTx) : LiveAcc :=
  let value : ℚ := (tx.value_wei : ℚ) / 10 ^ 18
  { exchange_inflow :=
      acc.exchange_inflow + (if tx.receiver ∈ exchanges then value else 0)
  , exchange_outflow :=
      acc.exchange_outflow + (if tx.sender ∈ exchanges then value else 0)
  , whale_volume := acc.whale_volume + (if th ≤ value then value else 0)
  , whale_count := acc.whale_count + (if th ≤ value then 1 else 0)
  , tx_count := acc.tx_count + 1 }

/-- The flow-bucket contribution `eth_live_loop` appends for one block
(ingest.py 162-173): the accumulated fields, with
`net_flow = exchange_outflow - exchange_inflow` built at row construction. -/
def eth_block_row (exchanges : List String) (th : ℚ) (bucket : Nat)
    (txs : List EthTx) : String × Nat × FlowRow :=
  let acc := txs.foldl (ethTxStep exchanges th) ⟨0, 0, 0, 0, 0⟩
  ("eth", bucket,
    { exchange_inflow := acc.exchange_inflow
    , exchange_outflow := acc.exchange_outflow
    , net_flow := acc.exchange_outflow - acc.exchange_inflow
    , whale_volume := acc.whale_volume
    , whale_count := acc.whale_count
    , tx_count := acc.tx_count })

/-- The flow-row invariant claimed by the spec. -/
def flowOk (r : FlowRow) : Prop :=
  r.net_flow = r.exchange_outflow - r.exchange_inflow

/-- Collect an all-present window; `none` as soon as one entry is null
(pandas: a window containing NaN yields NaN under the default
`min_periods = window`). -/
def allSome : List (Option ℚ) → Option (List ℚ)
  | [] => some []
  | none :: _ => none
  | some x :: rest =>
    match allSome rest with
    | some l => some (x :: l)
    | none => none

/-- Sample variance with `ddof = 1`, the square of the pandas rolling
standard deviation; the std itself is the (generally irrational) square
root, so the embedding carries the variance, which determines it. -/
def sampleVar (l : List ℚ) : ℚ :=
  let n : ℚ := l.length
  let mean := l.sum / n
  ((l.map (fun x => (x - mean) ^ 2)).sum) / (n - 1)

/-- `Series.rolling(window).std()` over a nullable series, squared: entry
`i` is defined only when the window is full (`window ≤ i + 1`), the window
holds at least two observations and none of them is null; pandas puts NaN
in every other position (a single observation has NaN std under
`ddof = 1`). -/
def rollingStd2 (window : Nat) (xs : List (Option ℚ)) : List (Option ℚ) :=
  (List.range xs.length).map (fun i =>
    if window ≤ i + 1 ∧ 2 ≤ window then
      match allSome ((xs.take (i + 1)).drop (i + 1 - window)) with
      | some vals => some (sampleVar vals)
      | none => none
    else none)

/-- `compute_volatility` (metrics.py 5-13) over the `(timestamp,
return_5m)` series read from `price_buckets`: rolling std (represented
squared) followed by `dropna`, keeping only timestamps whose volatility is
defined. -/
def compute_volatility (series : List (Nat × Option ℚ)) (window : Nat) :
    List (Nat × ℚ) :=
  (series.zip (rollingStd2 window (series.map (·.2)))).filterMap
    (fun x =>
      match x.2 with
      | some v => some (x.1.1, v)
      | none => none)

/-- An empty database, used as a base state for concrete witnesses. -/
def emptyDB : DB :=
  { market_trades := []
  , backfill_state := fun _ => none
  , whale_thresholds := fun _ => none
  , flow_buckets := fun _ => none
  , price_buckets_chain := fun _ => none
  , price_buckets := fun _ => none }

/-! ## Helper lemmas -/

theorem keyMem_of_countKey_one (tbl : List TradeRow) (chain : String) (id : Nat)
    (h : countKey tbl chain id = 1) : keyMem tbl chain id = true := by
  unfold countKey at h
  have hpos : 0 < (tbl.filter (fun r => r.chain == chain && r.trade_id == id)).length := by
    omega
  obtain ⟨r, hr⟩ := List.exists_mem_of_length_pos hpos
  have hm := List.mem_filter.mp hr
  exact List.any_eq_true.mpr ⟨r, hm.1, hm.2⟩

theorem map_sum_sub (g : List TradeRow) (f h : TradeRow → ℚ) :
    (g.map (fun r => f r - h r)).sum = (g.map f).sum - (g.map h).sum := by
  induction g with
  | nil => simp
  | cons r rest ih => simp only [List.map_cons, List.sum_cons, ih]; ring

theorem flowAgg_flowOk (tbl : List TradeRow) (chain : String) (th : ℚ) (b : Nat) :
    flowOk (flowAgg tbl chain th b) := by
  unfold flowOk flowAgg
  dsimp only
  have hpt : (fun r : TradeRow => if r.is_sell_maker then r.quantity else -r.quantity) =
      fun r : TradeRow =>
        (if r.is_sell_maker then r.quantity else 0) -
          (if r.is_sell_maker then 0 else r.quantity) := by
    funext r
    by_cases hr : r.is_sell_maker <;> simp [hr]
  rw [hpt, map_sum_sub]

theorem addFlow_flowOk (a b : FlowRow) (ha : flowOk a) (hb : flowOk b) :
    flowOk (addFlow a b) := by
  unfold flowOk addFlow at *
  dsimp only
  rw [ha, hb]
  ring

theorem upsert_bucket_stats_flowOk (rows : List (String × Nat × FlowRow)) :
    ∀ tbl : String × Nat → Option FlowRow,
      (∀ k r, tbl k = some r → flowOk r) →
      (∀ x ∈ rows, flowOk x.2.2) →
      ∀ k r, upsert_bucket_stats tbl rows k = some r → flowOk r := by
  induction rows with
  | nil =>
    intro tbl ht _ k r h
    exact ht k r h
  | cons x rest ih =>
    intro tbl ht hr k r h
    simp only [upsert_bucket_stats, List.foldl_cons] at h
    refine ih (upsertBucketRow tbl x.1 x.2.1 x.2.2) ?_ ?_ k r h
    · intro k2 r2 h2
      unfold upsertBucketRow at h2
      split at h2
      · have hx : flowOk x.2.2 := hr x (List.mem_cons_self x rest)
        cases hold : tbl (x.1, x.2.1) with
        | none =>
          rw [hold] at h2
          simp only [Option.some.injEq] at h2
          exact h2 ▸ hx
        | some old =>
          rw [hold] at h2
          simp only [Option.some.injEq] at h2
          exact h2 ▸ addFlow_flowOk old x.2.2 (ht _ old hold) hx
      · exact ht k2 r2 h2
    · intro y hy
      exact hr y (List.mem_cons_of_mem x hy)

theorem materialize_flow_buckets_flowOk (db : DB) (chain : String)
    (ht : ∀ k r, db.flow_buckets k = some r → flowOk r) :
    ∀ k r, (materialize_flow_buckets db chain).flow_buckets k = some r → flowOk r := by
  intro k r h
  unfold materialize_flow_buckets at h
  dsimp only at h
  split at h
  · simp only [Option.some.injEq] at h
    exact h ▸ flowAgg_flowOk _ _ _ _
  · exact ht k r h

/-! ## Claim C4 -/

/-- Claim C4: when the computed start position `max(requested_start,
checkpoint + 1)` is at or past the range end, `ingest_chain` returns
immediately and the database — in particular the stored trades and the
checkpoint — is unchanged. -/
theorem ingest_chain_noop_when_covered (fetch : Nat → Nat → List RawTrade)
    (ok : Nat → Bool) (chain : String) (days chunkMinutes nowMs : Nat) (db : DB)
    (h : nowMs ≤ computeStart db chain days nowMs) :
    ingest_chain fetch ok chain days chunkMinutes nowMs db = db := by
  unfold ingest_chain
  simp [h]

/-- Witness for C4: a checkpoint at 1000 covers a requested range ending
at `now = 900`, so the run is a no-op. -/
theorem ingest_chain_noop_when_covered_witness :
    ingest_chain (fun _ _ => []) (fun _ => true) "eth" 0 5 900
        { emptyDB with backfill_state := fun c => if c = "eth" then some 1000 else none } =
      { emptyDB with backfill_state := fun c => if c = "eth" then some 1000 else none } :=
  ingest_chain_noop_when_covered _ _ _ _ _ _ _ (by decide)

/-! ## Claim C6 -/

/-- Claim C6: inserting a trade whose `(chain, trade_id)` key is already
stored leaves the table unchanged (the original field values of every row
are retained), is not counted among inserted rows, and the key still has
exactly one stored row. -/
theorem insert_trades_dedup (tbl : List TradeRow) (chain : String) (t : RawTrade)
    (h : countKey tbl chain t.a = 1) :
    insert_trades tbl chain [t] = (tbl, 0) ∧
      countKey (insert_trades tbl chain [t]).1 chain t.a = 1 := by
  have hk : keyMem tbl chain t.a = true := keyMem_of_countKey_one tbl chain t.a h
  have he : insert_trades tbl chain [t] = (tbl, 0) := by
    simp [insert_trades, insertAux, hk]
  exact ⟨he, by rw [he]; exact h⟩

/-- Witness for C6: re-inserting the stored trade id 7 of chain eth is
ignored and leaves the single row unchanged. -/
theorem insert_trades_dedup_witness :
    insert_trades [⟨"eth", 7, 100, 0, 5, 2, false⟩] "eth" [⟨7, 9, 9, 999, true⟩] =
        ([⟨"eth", 7, 100, 0, 5, 2, false⟩], 0) ∧
      countKey (insert_trades [⟨"eth", 7, 100, 0, 5, 2, false⟩] "eth"
          [⟨7, 9, 9, 999, true⟩]).1 "eth" 7 = 1 :=
  insert_trades_dedup [⟨"eth", 7, 100, 0, 5, 2, false⟩] "eth" ⟨7, 9, 9, 999, true⟩
    (by decide)

/-! ## Claim C1 -/

/-- Counterexample for C1: against an upstream that answers HTTP 429 to
the first five requests and would deliver data on the sixth,
`binance_get_with_retry` stops after exactly 5 requests and returns an
empty payload — rate limiting does exhaust the bounded `range(5)` retry
budget and the call returns without the requested data. -/
theorem rate_limit_exhausts_retry_budget :
    binance_get_with_retry
        (fun i => if i < 5 then BinanceResp.rateLimited
          else BinanceResp.ok [⟨7, 2, 3, 100, false⟩]) = (some [], 5) ∧
      (fun i => if i < 5 then BinanceResp.rateLimited
          else BinanceResp.ok [⟨7, 2, 3, 100, false⟩]) 5 =
        BinanceResp.ok [⟨7, 2, 3, 100, false⟩] :=
  ⟨rfl, rfl⟩

/-- Claim C1 as amended: a rate-limit signal is retried with a
nondecreasing backoff capped at 6 seconds, but only within the overall
budget of 5 attempts; five consecutive 429 responses exhaust the loop and
the call returns an empty list (no exception, but no data either). -/
theorem rate_limit_capped_backoff_bounded_retries (resps : Nat → BinanceResp)
    (h : ∀ i, i < 5 → resps i = BinanceResp.rateLimited) :
    binance_get_with_retry resps = (some [], 5) ∧
      (∀ a b : Nat, a ≤ b → backoffSeconds a ≤ backoffSeconds b) ∧
      ∀ a : Nat, backoffSeconds a ≤ 6 := by
  refine ⟨?_, ?_, ?_⟩
  · have h0 := h 0 (by omega)
    have h1 := h 1 (by omega)
    have h2 := h 2 (by omega)
    have h3 := h 3 (by omega)
    have h4 := h 4 (by omega)
    simp [binance_get_with_retry, retryFrom, h0, h1, h2, h3, h4]
  · intro a b hab
    unfold backoffSeconds
    have hc : (a : ℚ) ≤ (b : ℚ) := by exact_mod_cast hab
    apply min_le_min _ le_rfl
    linarith
  · intro a
    exact min_le_right _ _

/-- Witness for C1 (amended): the all-429 upstream. -/
theorem rate_limit_capped_backoff_bounded_retries_witness :
    binance_get_with_retry (fun _ => BinanceResp.rateLimited) = (some [], 5) ∧
      (∀ a b : Nat, a ≤ b → backoffSeconds a ≤ backoffSeconds b) ∧
      ∀ a : Nat, backoffSeconds a ≤ 6 :=
  rate_limit_capped_backoff_bounded_retries (fun _ => BinanceResp.rateLimited)
    (fun _ _ => rfl)

/-! ## Claim C8 -/

/-- Claim C8: `net_flow = exchange_outflow - exchange_inflow` holds for
every row either write path produces: the materializer's full
recomputation keeps every stored row satisfying it, the live poller's
additive upsert preserves it whenever the existing rows and the added
contributions satisfy it, and the per-block contribution built by
`eth_live_loop` satisfies it by construction. -/
theorem net_flow_invariant :
    (∀ (db : DB) (chain : String),
        (∀ k r, db.flow_buckets k = some r → flowOk r) →
        ∀ k r, (materialize_flow_buckets db chain).flow_buckets k = some r → flowOk r) ∧
      (∀ (tbl : String × Nat → Option FlowRow) (rows : List (String × Nat × FlowRow)),
        (∀ k r, tbl k = some r → flowOk r) →
        (∀ x ∈ rows, flowOk x.2.2) →
        ∀ k r, upsert_bucket_stats tbl rows k = some r → flowOk r) ∧
      ∀ (exchanges : List String) (th : ℚ) (bucket : Nat) (txs : List EthTx),
        flowOk (eth_block_row exchanges th bucket txs).2.2 :=
  ⟨fun db chain ht => materialize_flow_buckets_flowOk db chain ht,
   fun tbl rows ht hr => upsert_bucket_stats_flowOk rows tbl ht hr,
   fun _ _ _ _ => rfl⟩

/-- Witness for C8: a live-poller contribution upserted into an empty
table yields a row satisfying the net-flow equation. -/
theorem net_flow_invariant_witness :
    flowOk (⟨1, 3, 2, 0, 0, 1⟩ : FlowRow) :=
  net_flow_invariant.2.1 (fun _ => none) [("eth", 0, ⟨1, 3, 2, 0, 0, 1⟩)]
    (fun _ r h => Option.noConfusion h)
    (by
      intro x hx
      rw [List.mem_singleton] at hx
      subst hx
      show (2 : ℚ) = 3 - 1
      norm_num)
    ("eth", 0) ⟨1, 3, 2, 0, 0, 1⟩ (by decide)

/-! ## Materializer characterization -/

theorem materialize_chain_trades (db : DB) (chain : String) :
    (materialize_chain db chain).market_trades = db.market_trades := by
  unfold materialize_chain upsert_chain_threshold materialize_flow_buckets
    materialize_price_buckets_chain sync_eth_into_legacy_price_buckets
  by_cases he : chain = "eth" <;> simp [he]

theorem materialize_chain_flow (db : DB) (chain : String) :
    (materialize_chain db chain).flow_buckets = fun k =>
      if k.1 = chain ∧ hasBucket db.market_trades chain k.2 = true then
        some (flowAgg db.market_trades chain (thresholdOf db.market_trades chain) k.2)
      else db.flow_buckets k := by
  funext k
  unfold materialize_chain upsert_chain_threshold materialize_flow_buckets
    materialize_price_buckets_chain sync_eth_into_legacy_price_buckets
  by_cases he : chain = "eth" <;> simp [he]

theorem materialize_chain_price (db : DB) (chain : String) :
    (materialize_chain db chain).price_buckets_chain = fun k =>
      if k.1 = chain then
        match (priceRows db.market_trades chain).find? (fun x => x.1 == k.2) with
        | some row => some ⟨row.2.1, row.2.2⟩
        | none => db.price_buckets_chain k
      else db.price_buckets_chain k := by
  funext k
  unfold materialize_chain upsert_chain_threshold materialize_flow_buckets
    materialize_price_buckets_chain sync_eth_into_legacy_price_buckets
  by_cases he : chain = "eth" <;> simp [he]

/-! ## Claim C5 -/

/-- Claim C5: re-running `materialize_chain` over an unchanged raw trade
ledger leaves every `flow_buckets` and `price_buckets_chain` row exactly
as the first run left it, although the whale threshold is recomputed on
each run. -/
theorem materialize_chain_idempotent (db : DB) (chain : String) :
    (materialize_chain (materialize_chain db chain) chain).flow_buckets =
        (materialize_chain db chain).flow_buckets ∧
      (materialize_chain (materialize_chain db chain) chain).price_buckets_chain =
        (materialize_chain db chain).price_buckets_chain := by
  constructor
  · rw [materialize_chain_flow (materialize_chain db chain) chain,
      materialize_chain_trades db chain]
    funext k
    by_cases hc : k.1 = chain ∧ hasBucket db.market_trades chain k.2 = true
    · rw [if_pos hc, materialize_chain_flow db chain]
      simp [hc]
    · rw [if_neg hc]
  · rw [materialize_chain_price (materialize_chain db chain) chain,
      materialize_chain_trades db chain]
    funext k
    by_cases hk : k.1 = chain
    · rw [if_pos hk]
      cases hf : (priceRows db.market_trades chain).find? (fun x => x.1 == k.2) with
      | some row =>
        rw [materialize_chain_price db chain]
        simp [hk, hf]
      | none => rfl
    · rw [if_neg hk]

/-! ## Claim C10 -/

/-- Claim C10: `materialize_chain` only writes `flow_buckets` keys whose
bucket time occurs among the chain's raw ledger rows; any row keyed by a
bucket with no ledger row — such as one created solely by the live
poller's additive upserts — is left completely unchanged. -/
theorem materialize_chain_flow_frame (db : DB) (chain : String) (k : String × Nat)
    (h : ¬ (k.1 = chain ∧ ∃ r ∈ db.market_trades, r.chain = chain ∧ r.bucket_ms = k.2)) :
    (materialize_chain db chain).flow_buckets k = db.flow_buckets k := by
  rw [materialize_chain_flow db chain]
  dsimp only
  rw [if_neg]
  intro hc
  apply h
  refine ⟨hc.1, ?_⟩
  have := List.any_eq_true.mp hc.2
  obtain ⟨r, hr, hb⟩ := this
  have hrc := List.mem_filter.mp hr
  refine ⟨r, hrc.1, ?_, ?_⟩
  · exact eq_of_beq hrc.2
  · exact eq_of_beq hb

/-- Witness for C10: a flow row written by the live poller at bucket
300000 survives a materialize run whose ledger only has a trade in bucket
600000. -/
theorem materialize_chain_flow_frame_witness :
    (materialize_chain
        { emptyDB with
            market_trades := [⟨"eth", 1, 600000, 600000, 5, 2, false⟩]
          , flow_buckets := fun k =>
              if k = ("eth", 300000) then some ⟨1, 3, 2, 0, 0, 1⟩ else none }
        "eth").flow_buckets ("eth", 300000) =
      ({ emptyDB with
            market_trades := [⟨"eth", 1, 600000, 600000, 5, 2, false⟩]
          , flow_buckets := fun k =>
              if k = ("eth", 300000) then some ⟨1, 3, 2, 0, 0, 1⟩ else none } : DB).flow_buckets
        ("eth", 300000) :=
  materialize_chain_flow_frame _ "eth" ("eth", 300000) (by decide)

/-! ## Price-return pipeline lemmas -/

theorem attachReturns_length (cs : List (Nat × ℚ)) :
    ∀ p : Option ℚ, (attachReturns p cs).length = cs.length := by
  induction cs with
  | nil => intro p; rfl
  | cons x rest ih =>
    intro p
    cases x with
    | mk t c => simp [attachReturns, ih]

theorem attachReturns_map_fst (cs : List (Nat × ℚ)) :
    ∀ p : Option ℚ, (attachReturns p cs).map (·.1) = cs.map (·.1) := by
  induction cs with
  | nil => intro p; rfl
  | cons x rest ih =>
    intro p
    cases x with
    | mk t c => simp [attachReturns, ih]

theorem attachReturns_get (cs : List (Nat × ℚ)) :
    ∀ (p : Option ℚ) (i : Nat) (hi : i < cs.length)
      (hi2 : i < (attachReturns p cs).length),
      (attachReturns p cs).get ⟨i, hi2⟩ =
        ((cs.get ⟨i, hi⟩).1, (cs.get ⟨i, hi⟩).2,
          retCalc (if i = 0 then p else some ((cs.get ⟨i - 1, by omega⟩).2))
            (cs.get ⟨i, hi⟩).2) := by
  induction cs with
  | nil => intro p i hi hi2; simp at hi
  | cons x rest ih =>
    intro p i hi hi2
    cases x with
    | mk t c =>
      cases i with
      | zero => rfl
      | succ j =>
        have hj : j < rest.length := by simpa using hi
        have hj2 : j < (attachReturns (some c) rest).length := by
          rw [attachReturns_length]; exact hj
        have hstep : (attachReturns p ((t, c) :: rest)).get ⟨j + 1, hi2⟩ =
            (attachReturns (some c) rest).get ⟨j, hj2⟩ := rfl
        rw [hstep, ih (some c) j hj hj2]
        cases j with
        | zero => rfl
        | succ m => rfl

theorem bucketList_nodup (tbl : List TradeRow) (chain : String) :
    (bucketList tbl chain).Nodup := by
  unfold bucketList
  exact ((List.perm_insertionSort _ _).nodup_iff).mpr (List.nodup_dedup _)

theorem priceRows_map_fst (tbl : List TradeRow) (chain : String) :
    (priceRows tbl chain).map (·.1) = bucketList tbl chain := by
  unfold priceRows closesList
  rw [attachReturns_map_fst, List.map_map]
  exact List.map_id _

theorem find?_get_nodup (l : List (Nat × ℚ × Option ℚ)) :
    ∀ (i : Nat) (hi : i < l.length), (l.map (·.1)).Nodup →
      l.find? (fun x => x.1 == (l.get ⟨i, hi⟩).1) = some (l.get ⟨i, hi⟩) := by
  induction l with
  | nil => intro i hi; simp at hi
  | cons x rest ih =>
    intro i hi hnd
    have hnd2 : x.1 ∉ rest.map (·.1) ∧ (rest.map (·.1)).Nodup := by
      rw [List.map_cons] at hnd
      exact List.nodup_cons.mp hnd
    cases i with
    | zero =>
      exact List.find?_cons_of_pos _ (beq_self_eq_true x.1)
    | succ j =>
      have hj : j < rest.length := by simpa using hi
      have hx1 : x.1 ≠ (rest.get ⟨j, hj⟩).1 := by
        intro he
        exact hnd2.1 (he ▸ List.mem_map_of_mem (·.1) (rest.get_mem j hj))
      rw [List.find?_cons_of_neg]
      · exact ih j hj hnd2.2
      · simp only [beq_iff_eq]
        exact hx1

/-! ## Claim C7 -/

/-- Claim C7: for every materialized price bucket of a chain,
`return_5m` is null exactly on the chronologically first bucket of the
series and on buckets whose preceding close is zero; otherwise it equals
`(close - prevClose) / |prevClose|`.  The first conjunct ties the stored
row to the computed series `priceRows`. -/
theorem price_return_null_rule (db : DB) (chain : String) (i : Nat)
    (hi : i < (priceRows db.market_trades chain).length) :
    (materialize_chain db chain).price_buckets_chain
        (chain, ((priceRows db.market_trades chain).get ⟨i, hi⟩).1) =
      some ⟨((priceRows db.market_trades chain).get ⟨i, hi⟩).2.1,
        ((priceRows db.market_trades chain).get ⟨i, hi⟩).2.2⟩ ∧
    (i = 0 → ((priceRows db.market_trades chain).get ⟨i, hi⟩).2.2 = none) ∧
    ∀ hp : i - 1 < (priceRows db.market_trades chain).length, 0 < i →
      (((priceRows db.market_trades chain).get ⟨i - 1, hp⟩).2.1 = 0 →
        ((priceRows db.market_trades chain).get ⟨i, hi⟩).2.2 = none) ∧
      (((priceRows db.market_trades chain).get ⟨i - 1, hp⟩).2.1 ≠ 0 →
        ((priceRows db.market_trades chain).get ⟨i, hi⟩).2.2 =
          some ((((priceRows db.market_trades chain).get ⟨i, hi⟩).2.1 -
              ((priceRows db.market_trades chain).get ⟨i - 1, hp⟩).2.1) /
            |((priceRows db.market_trades chain).get ⟨i - 1, hp⟩).2.1|)) := by
  have hlen : i < (closesList db.market_trades chain).length := by
    have := attachReturns_length (closesList db.market_trades chain) none
    unfold priceRows at hi
    omega
  have hget := attachReturns_get (closesList db.market_trades chain) none i hlen hi
  refine ⟨?_, ?_, ?_⟩
  · rw [materialize_chain_price db chain]
    dsimp only
    rw [if_pos rfl]
    have hnd : ((priceRows db.market_trades chain).map (·.1)).Nodup := by
      rw [priceRows_map_fst]
      exact bucketList_nodup _ _
    rw [find?_get_nodup (priceRows db.market_trades chain) i hi hnd]
  · intro h0
    subst h0
    show ((priceRows db.market_trades chain).get ⟨0, hi⟩).2.2 = none
    rw [show (priceRows db.market_trades chain).get ⟨0, hi⟩ =
        (attachReturns none (closesList db.market_trades chain)).get ⟨0, hi⟩ from rfl,
      hget]
    rfl
  · intro hp hpos
    have hlenp : i - 1 < (closesList db.market_trades chain).length := by omega
    have hgetp := attachReturns_get (closesList db.market_trades chain) none (i - 1) hlenp hp
    have h22 : ((priceRows db.market_trades chain).get ⟨i, hi⟩).2.2 =
        retCalc (some (((closesList db.market_trades chain).get ⟨i - 1, hlenp⟩).2))
          (((closesList db.market_trades chain).get ⟨i, hlen⟩).2) := by
      rw [show (priceRows db.market_trades chain).get ⟨i, hi⟩ =
          (attachReturns none (closesList db.market_trades chain)).get ⟨i, hi⟩ from rfl,
        hget]
      dsimp only
      rw [if_neg (by omega : ¬ i = 0)]
    have h21 : ((priceRows db.market_trades chain).get ⟨i, hi⟩).2.1 =
        ((closesList db.market_trades chain).get ⟨i, hlen⟩).2 := by
      rw [show (priceRows db.market_trades chain).get ⟨i, hi⟩ =
          (attachReturns none (closesList db.market_trades chain)).get ⟨i, hi⟩ from rfl,
        hget]
    have hprev : ((priceRows db.market_trades chain).get ⟨i - 1, hp⟩).2.1 =
        ((closesList db.market_trades chain).get ⟨i - 1, hlenp⟩).2 := by
      rw [show (priceRows db.market_trades chain).get ⟨i - 1, hp⟩ =
          (attachReturns none (closesList db.market_trades chain)).get ⟨i - 1, hp⟩ from rfl,
        hgetp]
    constructor
    · intro hz
      rw [hprev] at hz
      rw [h22, hz]
      simp [retCalc]
    · intro hz
      rw [hprev] at hz
      rw [h22, h21, hprev]
      simp only [retCalc]
      rw [if_neg hz]

/-- Witness for C7: a two-bucket eth ledger whose first bucket closes at
price 0; the second bucket's stored return is null by the zero-previous-
close rule, and the stored row matches the computed series. -/
theorem price_return_null_rule_witness :
    (materialize_chain
        { emptyDB with market_trades :=
            [⟨"eth", 1, 0, 0, 0, 1, false⟩, ⟨"eth", 2, 300000, 300000, 12, 1, false⟩] }
        "eth").price_buckets_chain
        ("eth",
          ((priceRows
              [⟨"eth", 1, 0, 0, 0, 1, false⟩, ⟨"eth", 2, 300000, 300000, 12, 1, false⟩]
              "eth").get ⟨1, by decide⟩).1) =
      some ⟨((priceRows
              [⟨"eth", 1, 0, 0, 0, 1, false⟩, ⟨"eth", 2, 300000, 300000, 12, 1, false⟩]
              "eth").get ⟨1, by decide⟩).2.1,
        ((priceRows
              [⟨"eth", 1, 0, 0, 0, 1, false⟩, ⟨"eth", 2, 300000, 300000, 12, 1, false⟩]
              "eth").get ⟨1, by decide⟩).2.2⟩ ∧
    ((priceRows
        [⟨"eth", 1, 0, 0, 0, 1, false⟩, ⟨"eth", 2, 300000, 300000, 12, 1, false⟩]
        "eth").get ⟨1, by decide⟩).2.2 = none := by
  have h := price_return_null_rule
    { emptyDB with market_trades :=
        [⟨"eth", 1, 0, 0, 0, 1, false⟩, ⟨"eth", 2, 300000, 300000, 12, 1, false⟩] }
    "eth" 1 (by decide)
  exact ⟨h.1, (h.2.2 (by decide) (by decide)).1 (by decide)⟩

/-! ## Claim C9 -/

theorem rollingStd2_length (w : Nat) (xs : List (Option ℚ)) :
    (rollingStd2 w xs).length = xs.length := by
  simp [rollingStd2]

/-- Counterexample for C9: the series a materialized price table actually
produces starts with a null `return_5m`, and pandas' rolling std (with its
default `min_periods = window`) yields NaN on every window containing that
null.  Over the three-point series below with window 3, the third point —
the N-th point, which the claim says is defined — is dropped along with
the first N-1, so `compute_volatility` returns no rows at all. -/
theorem rolling_volatility_null_window_dropped :
    compute_volatility [(0, none), (300000, some 1), (600000, some 2)] 3 = [] ∧
      ([((0 : Nat), (none : Option ℚ)), (300000, some 1), (600000, some 2)].length = 3) :=
  ⟨rfl, rfl⟩

/-- Claim C9 as amended: rolling volatility with window `N ≥ 2` is
undefined (and dropped from the output) for the first `N - 1` points of
the series and for every point whose trailing `N`-window contains a null
return; whenever the trailing window is fully populated it is defined and
equals the sample standard deviation (`ddof = 1`) of the window, verified
here through its square `sampleVar`. -/
theorem rolling_volatility_window_rule (xs : List (Option ℚ)) (w i : Nat)
    (hw : 2 ≤ w) :
    ∀ ho : i < (rollingStd2 w xs).length,
      (i + 1 < w → (rollingStd2 w xs).get ⟨i, ho⟩ = none) ∧
      (allSome ((xs.take (i + 1)).drop (i + 1 - w)) = none →
        (rollingStd2 w xs).get ⟨i, ho⟩ = none) ∧
      ∀ vals, w ≤ i + 1 → allSome ((xs.take (i + 1)).drop (i + 1 - w)) = some vals →
        (rollingStd2 w xs).get ⟨i, ho⟩ = some (sampleVar vals) := by
  intro ho
  have hget : (rollingStd2 w xs).get ⟨i, ho⟩ =
      (if w ≤ i + 1 ∧ 2 ≤ w then
        match allSome ((xs.take (i + 1)).drop (i + 1 - w)) with
        | some vals => some (sampleVar vals)
        | none => none
      else none) := by
    unfold rollingStd2
    rw [List.get_map, List.get_range]
  refine ⟨?_, ?_, ?_⟩
  · intro hlt
    rw [hget, if_neg]
    intro hc
    omega
  · intro hnone
    rw [hget]
    by_cases hc : w ≤ i + 1 ∧ 2 ≤ w
    · rw [if_pos hc, hnone]
    · rw [if_neg hc]
  · intro vals hwi hsome
    rw [hget, if_pos ⟨hwi, hw⟩, hsome]

/-- Witness for C9 (amended), on the spec's example series
`[0.01, -0.02, 0.03, 0.00]` scaled by 100, with window 3: the second
point is undefined and the third is the variance of the first three
returns. -/
theorem rolling_volatility_window_rule_witness :
    ((1 + 1 < 3 →
        (rollingStd2 3 [some 1, some (-2), some 3, some 0]).get
          ⟨1, by decide⟩ = none) ∧
      (allSome (([some (1 : ℚ), some (-2), some 3, some 0].take 2).drop (2 - 3)) = none →
        (rollingStd2 3 [some 1, some (-2), some 3, some 0]).get
          ⟨1, by decide⟩ = none) ∧
      ∀ vals, 3 ≤ 1 + 1 →
        allSome (([some (1 : ℚ), some (-2), some 3, some 0].take 2).drop (2 - 3)) = some vals →
        (rollingStd2 3 [some 1, some (-2), some 3, some 0]).get
          ⟨1, by decide⟩ = some (sampleVar vals)) ∧
    (rollingStd2 3 [some 1, some (-2), some 3, some 0]).get ⟨2, by decide⟩ =
      some (sampleVar [1, -2, 3]) := by
  constructor
  · exact rolling_volatility_window_rule
      [some 1, some (-2), some 3, some 0] 3 1 (by decide) (by decide)
  · exact (rolling_volatility_window_rule
      [some 1, some (-2), some 3, some 0] 3 2 (by decide)
      (by decide)).2.2 [1, -2, 3] (by decide) (by decide)

/-! ## Chunk-loop lemmas for the backfill checkpoint claim -/

theorem ingestLoop_step_fail (fetch : Nat → Nat → List RawTrade) (ok : Nat → Bool)
    (chain : String) (nowMs chunkMs fuel cursor : Nat) (db : DB)
    (hc : cursor < nowMs) (hfail : ok cursor = false) :
    ingestLoop fetch ok chain nowMs chunkMs (fuel + 1) cursor db = db := by
  simp [ingestLoop, chunkTxn, hc, hfail]

theorem ingestLoop_step_ok (fetch : Nat → Nat → List RawTrade) (ok : Nat → Bool)
    (chain : String) (nowMs chunkMs fuel cursor : Nat) (db : DB)
    (hc : cursor < nowMs) (hok : ok cursor = true) :
    ingestLoop fetch ok chain nowMs chunkMs (fuel + 1) cursor db =
      ingestLoop fetch ok chain nowMs chunkMs fuel
        (min (cursor + chunkMs - 1) nowMs + 1)
        (update_checkpoint
          { db with market_trades :=
              (insert_trades db.market_trades chain
                (fetch cursor (min (cursor + chunkMs - 1) nowMs))).1 }
          chain (min (cursor + chunkMs - 1) nowMs)) := by
  simp [ingestLoop, chunkTxn, hc, hok]

theorem ingestLoop_eq_applyChunks (fetch : Nat → Nat → List RawTrade) (ok : Nat → Bool)
    (chain : String) (nowMs chunkMs : Nat) (hch : 1 ≤ chunkMs) :
    ∀ (k startMs fuel : Nat) (db0 : DB),
      startMs + k * chunkMs < nowMs →
      nowMs - startMs ≤ fuel →
      (∀ j, j < k → ok (startMs + j * chunkMs) = true) →
      ok (startMs + k * chunkMs) = false →
      ingestLoop fetch ok chain nowMs chunkMs fuel startMs db0 =
        applyChunks fetch chain chunkMs k startMs db0 := by
  intro k
  induction k with
  | zero =>
    intro startMs fuel db0 hlt hfuel _ hfail
    rw [Nat.zero_mul, Nat.add_zero] at hlt hfail
    cases fuel with
    | zero => omega
    | succ f =>
      rw [ingestLoop_step_fail fetch ok chain nowMs chunkMs f startMs db0 hlt hfail]
      rfl
  | succ m ih =>
    intro startMs fuel db0 hlt hfuel hok hfail
    have hsm : (m + 1) * chunkMs = m * chunkMs + chunkMs := Nat.succ_mul m chunkMs
    have hlin : startMs + chunkMs < nowMs := by
      rw [hsm] at hlt
      omega
    have hcur : startMs < nowMs := by omega
    have hok0 : ok startMs = true := by
      have := hok 0 (Nat.succ_pos m)
      rwa [Nat.zero_mul, Nat.add_zero] at this
    have hmin : min (startMs + chunkMs - 1) nowMs = startMs + chunkMs - 1 := by
      omega
    cases fuel with
    | zero => omega
    | succ f =>
      rw [ingestLoop_step_ok fetch ok chain nowMs chunkMs f startMs db0 hcur hok0, hmin]
      have hce : startMs + chunkMs - 1 + 1 = startMs + chunkMs := by omega
      rw [hce]
      have happ : applyChunks fetch chain chunkMs (m + 1) startMs db0 =
          applyChunks fetch chain chunkMs m (startMs + chunkMs)
            (update_checkpoint
              { db0 with market_trades :=
                  (insert_trades db0.market_trades chain
                    (fetch startMs (startMs + chunkMs - 1))).1 }
              chain (startMs + chunkMs - 1)) := rfl
      rw [happ]
      apply ih (startMs + chunkMs) f _
      · calc startMs + chunkMs + m * chunkMs
            = startMs + (m + 1) * chunkMs := by ring
          _ < nowMs := hlt
      · omega
      · intro j hj
        have := hok (j + 1) (Nat.succ_lt_succ hj)
        have he : startMs + (j + 1) * chunkMs = startMs + chunkMs + j * chunkMs := by ring
        rwa [he] at this
      · have he : startMs + chunkMs + m * chunkMs = startMs + (m + 1) * chunkMs := by ring
        rwa [he]

theorem applyChunks_trades (fetch : Nat → Nat → List RawTrade) (chain : String)
    (chunkMs : Nat) :
    ∀ (k cursor : Nat) (db : DB),
      (applyChunks fetch chain chunkMs k cursor db).market_trades =
        foldChunks fetch chain chunkMs k cursor db.market_trades := by
  intro k
  induction k with
  | zero => intro cursor db; rfl
  | succ m ih =>
    intro cursor db
    rw [show applyChunks fetch chain chunkMs (m + 1) cursor db =
        applyChunks fetch chain chunkMs m (cursor + chunkMs)
          (update_checkpoint
            { db with market_trades :=
                (insert_trades db.market_trades chain
                  (fetch cursor (cursor + chunkMs - 1))).1 }
            chain (cursor + chunkMs - 1)) from rfl]
    rw [ih]
    rfl

theorem applyChunks_checkpoint (fetch : Nat → Nat → List RawTrade) (chain : String)
    (chunkMs : Nat) :
    ∀ (k cursor : Nat) (db : DB),
      (applyChunks fetch chain chunkMs (k + 1) cursor db).backfill_state chain =
        some (cursor + (k + 1) * chunkMs - 1) := by
  intro k
  induction k with
  | zero =>
    intro cursor db
    show (update_checkpoint _ chain (cursor + chunkMs - 1)).backfill_state chain =
      some (cursor + 1 * chunkMs - 1)
    unfold update_checkpoint
    rw [Nat.one_mul]
    simp
  | succ m ih =>
    intro cursor db
    rw [show applyChunks fetch chain chunkMs (m + 1 + 1) cursor db =
        applyChunks fetch chain chunkMs (m + 1) (cursor + chunkMs)
          (update_checkpoint
            { db with market_trades :=
                (insert_trades db.market_trades chain
                  (fetch cursor (cursor + chunkMs - 1))).1 }
            chain (cursor + chunkMs - 1)) from rfl]
    rw [ih]
    have he : cursor + chunkMs + (m + 1) * chunkMs = cursor + (m + 1 + 1) * chunkMs := by
      ring
    rw [he]

theorem keyMem_append (l1 l2 : List TradeRow) (chain : String) (id : Nat) :
    keyMem (l1 ++ l2) chain id = (keyMem l1 chain id || keyMem l2 chain id) := by
  unfold keyMem
  exact List.any_append

theorem keyMem_insertAux (chain : String) :
    ∀ (raws : List RawTrade) (tbl : List TradeRow) (n id : Nat),
      keyMem (insertAux chain tbl n raws).1 chain id = true →
      keyMem tbl chain id = true ∨ ∃ u ∈ raws, u.a = id := by
  intro raws
  induction raws with
  | nil => intro tbl n id h; exact Or.inl h
  | cons t rest ih =>
    intro tbl n id h
    unfold insertAux at h
    by_cases hk : keyMem tbl chain t.a
    · rw [if_pos hk] at h
      rcases ih tbl n id h with h1 | h2
      · exact Or.inl h1
      · exact Or.inr (by obtain ⟨u, hu, he⟩ := h2; exact ⟨u, List.mem_cons_of_mem t hu, he⟩)
    · rw [if_neg hk] at h
      rcases ih (tbl ++ [rowOfRaw chain t]) (n + 1) id h with h1 | h2
      · rw [keyMem_append] at h1
        rcases Bool.or_eq_true_iff.mp h1 with h3 | h4
        · exact Or.inl h3
        · refine Or.inr ⟨t, List.mem_cons_self t rest, ?_⟩
          unfold keyMem rowOfRaw at h4
          simp only [List.any_cons, List.any_nil, Bool.or_false] at h4
          exact eq_of_beq (Bool.and_elim_right h4)
      · exact Or.inr (by obtain ⟨u, hu, he⟩ := h2; exact ⟨u, List.mem_cons_of_mem t hu, he⟩)

theorem foldChunks_keyMem (fetch : Nat → Nat → List RawTrade) (chain : String)
    (chunkMs : Nat) :
    ∀ (k cursor : Nat) (tbl : List TradeRow) (id : Nat),
      keyMem (foldChunks fetch chain chunkMs k cursor tbl) chain id = true →
      keyMem tbl chain id = true ∨
        ∃ j, j < k ∧
          ∃ u ∈ fetch (cursor + j * chunkMs) (cursor + j * chunkMs + chunkMs - 1),
            u.a = id := by
  intro k
  induction k with
  | zero => intro cursor tbl id h; exact Or.inl h
  | succ m ih =>
    intro cursor tbl id h
    rw [show foldChunks fetch chain chunkMs (m + 1) cursor tbl =
        foldChunks fetch chain chunkMs m (cursor + chunkMs)
          (insert_trades tbl chain (fetch cursor (cursor + chunkMs - 1))).1 from rfl] at h
    rcases ih (cursor + chunkMs) _ id h with h1 | h2
    · rcases keyMem_insertAux chain _ tbl 0 id h1 with h3 | h4
      · exact Or.inl h3
      · refine Or.inr ⟨0, Nat.succ_pos m, ?_⟩
        rw [Nat.zero_mul, Nat.add_zero]
        exact h4
    · obtain ⟨j, hj, u, hu, he⟩ := h2
      refine Or.inr ⟨j + 1, Nat.succ_lt_succ hj, ?_⟩
      have harith : cursor + (j + 1) * chunkMs = cursor + chunkMs + j * chunkMs := by ring
      rw [harith]
      exact ⟨u, hu, he⟩

/-! ## Claim C2 -/

/-- Claim C2: each chunk's checkpoint advance commits in the same
transaction as its trade inserts, so when chunks `0..k-1` commit and chunk
`k`'s transaction fails after its fetch, the loop aborts with the stored
checkpoint equal to chunk `k-1`'s end boundary `startMs + k*chunkMs - 1`,
the trade table holding exactly the first `k` chunks' inserts (hence no
trade exclusive to chunk `k`), and any re-run whose requested start does
not exceed chunk `k`'s start resumes exactly at chunk `k`'s start
position. -/
theorem backfill_chunk_failure_checkpoint (fetch : Nat → Nat → List RawTrade)
    (ok : Nat → Bool) (chain : String) (nowMs chunkMs startMs fuel k : Nat) (db0 : DB)
    (hch : 1 ≤ chunkMs) (hk : 0 < k)
    (hlt : startMs + k * chunkMs < nowMs)
    (hfuel : nowMs - startMs ≤ fuel)
    (hok : ∀ j, j < k → ok (startMs + j * chunkMs) = true)
    (hfail : ok (startMs + k * chunkMs) = false) :
    (ingestLoop fetch ok chain nowMs chunkMs fuel startMs db0).backfill_state chain =
        some (startMs + k * chunkMs - 1) ∧
      (ingestLoop fetch ok chain nowMs chunkMs fuel startMs db0).market_trades =
        foldChunks fetch chain chunkMs k startMs db0.market_trades ∧
      (∀ id,
        keyMem (ingestLoop fetch ok chain nowMs chunkMs fuel startMs db0).market_trades
            chain id = true →
        keyMem db0.market_trades chain id = true ∨
          ∃ j, j < k ∧
            ∃ u ∈ fetch (startMs + j * chunkMs) (startMs + j * chunkMs + chunkMs - 1),
              u.a = id) ∧
      ∀ sd, sd ≤ startMs + k * chunkMs →
        resumeStartOf sd
            ((ingestLoop fetch ok chain nowMs chunkMs fuel startMs db0).backfill_state
              chain) =
          startMs + k * chunkMs := by
  have hloop := ingestLoop_eq_applyChunks fetch ok chain nowMs chunkMs hch k startMs
    fuel db0 hlt hfuel hok hfail
  obtain ⟨m, rfl⟩ : ∃ m, k = m + 1 := ⟨k - 1, by omega⟩
  have hcp : (ingestLoop fetch ok chain nowMs chunkMs fuel startMs db0).backfill_state
      chain = some (startMs + (m + 1) * chunkMs - 1) := by
    rw [hloop]
    exact applyChunks_checkpoint fetch chain chunkMs m startMs db0
  refine ⟨hcp, ?_, ?_, ?_⟩
  · rw [hloop]
    exact applyChunks_trades fetch chain chunkMs (m + 1) startMs db0
  · intro id h
    rw [hloop, applyChunks_trades] at h
    exact foldChunks_keyMem fetch chain chunkMs (m + 1) startMs db0.market_trades id h
  · intro sd hsd
    rw [hcp]
    show max sd (startMs + (m + 1) * chunkMs - 1 + 1) = startMs + (m + 1) * chunkMs
    have hpos : 0 < (m + 1) * chunkMs := Nat.mul_pos (Nat.succ_pos m) hch
    have h1 : startMs + (m + 1) * chunkMs - 1 + 1 = startMs + (m + 1) * chunkMs := by
      omega
    rw [h1]
    exact Nat.max_eq_right hsd

/-- Witness for C2: one committed chunk `[0,1]`, then a failing chunk at
cursor 2; the checkpoint sticks at 1, the table holds exactly chunk 0's
trade, and a re-run requesting start 0 resumes at 2. -/
theorem backfill_chunk_failure_checkpoint_witness :
    (ingestLoop (fun s _ => [⟨s, 1, 1, s, false⟩]) (fun c => decide (c < 2)) "eth"
        10 2 10 0 emptyDB).backfill_state "eth" = some (0 + 1 * 2 - 1) ∧
      (ingestLoop (fun s _ => [⟨s, 1, 1, s, false⟩]) (fun c => decide (c < 2)) "eth"
          10 2 10 0 emptyDB).market_trades =
        foldChunks (fun s _ => [⟨s, 1, 1, s, false⟩]) "eth" 2 1 0
          emptyDB.market_trades ∧
      (∀ id,
        keyMem (ingestLoop (fun s _ => [⟨s, 1, 1, s, false⟩]) (fun c => decide (c < 2))
              "eth" 10 2 10 0 emptyDB).market_trades "eth" id = true →
        keyMem emptyDB.market_trades "eth" id = true ∨
          ∃ j, j < 1 ∧
            ∃ u ∈ (fun (s : Nat) (_ : Nat) => [(⟨s, 1, 1, s, false⟩ : RawTrade)])
                (0 + j * 2) (0 + j * 2 + 2 - 1),
              u.a = id) ∧
      ∀ sd, sd ≤ 0 + 1 * 2 →
        resumeStartOf sd
            ((ingestLoop (fun s _ => [⟨s, 1, 1, s, false⟩]) (fun c => decide (c < 2))
                "eth" 10 2 10 0 emptyDB).backfill_state "eth") =
          0 + 1 * 2 :=
  backfill_chunk_failure_checkpoint (fun s _ => [⟨s, 1, 1, s, false⟩])
    (fun c => decide (c < 2)) "eth" 10 2 0 10 1 emptyDB (by decide) (by decide)
    (by decide) (by decide) (by decide) (by decide)

/-! ## Pagination lemmas for the fetch-window claim -/

theorem lastA_mem : ∀ l : List RawTrade, l ≠ [] → ∃ u ∈ l, u.a = lastA l := by
  intro l
  induction l with
  | nil => intro h; exact absurd rfl h
  | cons t rest ih =>
    intro _
    cases rest with
    | nil => exact ⟨t, List.mem_singleton_self t, rfl⟩
    | cons x rest2 =>
      obtain ⟨u, hu, he⟩ := ih (List.cons_ne_nil x rest2)
      exact ⟨u, List.mem_cons_of_mem t hu, he⟩

theorem lastA_ge : ∀ l : List RawTrade,
    List.Pairwise (fun x y => x.a < y.a) l → ∀ u ∈ l, u.a ≤ lastA l := by
  intro l
  induction l with
  | nil => intro _ u hu; exact absurd hu (List.not_mem_nil u)
  | cons t rest ih =>
    intro hp u hu
    cases rest with
    | nil =>
      rw [List.mem_singleton] at hu
      exact le_of_eq (congrArg RawTrade.a hu)
    | cons x rest2 =>
      rcases List.mem_cons.mp hu with h1 | h2
      · subst h1
        obtain ⟨v, hv, he⟩ := lastA_mem (x :: rest2) (List.cons_ne_nil x rest2)
        have : u.a < v.a := (List.pairwise_cons.mp hp).1 v hv
        show u.a ≤ lastA (x :: rest2)
        omega
      · exact ih (List.pairwise_cons.mp hp).2 u h2

theorem mono_T_of_lt_a (L : List RawTrade)
    (hA : List.Pairwise (fun x y => x.a < y.a) L)
    (hT : List.Pairwise (fun x y => x.T ≤ y.T) L) :
    ∀ u ∈ L, ∀ t ∈ L, u.a < t.a → u.T ≤ t.T := by
  intro u hu t ht hlt
  obtain ⟨i, hi⟩ := List.mem_iff_get.mp hu
  obtain ⟨j, hj⟩ := List.mem_iff_get.mp ht
  rcases Nat.lt_trichotomy i.val j.val with h | h | h
  · have := List.pairwise_iff_get.mp hT i j (Fin.lt_def.mpr h)
    rwa [hi, hj] at this
  · exfalso
    have : i = j := Fin.ext h
    subst this
    rw [hi] at hj
    subst hj
    exact lt_irrefl _ hlt
  · exfalso
    have := List.pairwise_iff_get.mp hA j i (Fin.lt_def.mpr h)
    rw [hi, hj] at this
    omega

theorem collectBatch_eq (s e : Nat) :
    ∀ l : List RawTrade, (∀ t ∈ l, s ≤ t.T) →
      List.Pairwise (fun x y => x.T ≤ y.T) l →
      collectBatch s e l =
        (l.filter (fun t => decide (t.T ≤ e)), l.any (fun t => decide (e < t.T))) := by
  intro l
  induction l with
  | nil => intro _ _; rfl
  | cons t rest ih =>
    intro hs hp
    have hts : ¬ t.T < s := not_lt.mpr (hs t (List.mem_cons_self t rest))
    unfold collectBatch
    rw [if_neg hts]
    by_cases hte : e < t.T
    · rw [if_pos hte]
      have hfno : rest.filter (fun t => decide (t.T ≤ e)) = [] := by
        rw [List.filter_eq_nil_iff]
        intro u hu
        have : t.T ≤ u.T := (List.pairwise_cons.mp hp).1 u hu
        simp only [decide_eq_true_eq]
        omega
      rw [List.filter_cons, List.any_cons]
      simp [hte, hfno]
    · rw [if_neg hte]
      have hrec := ih (fun u hu => hs u (List.mem_cons_of_mem t hu))
        (List.pairwise_cons.mp hp).2
      rw [hrec]
      rw [List.filter_cons, List.any_cons]
      have hle : t.T ≤ e := le_of_not_lt hte
      simp [hle, hte]

theorem filter_after_last (b d : List RawTrade) (hb : b ≠ [])
    (hA : List.Pairwise (fun x y => x.a < y.a) (b ++ d)) :
    (b ++ d).filter (fun t => decide (lastA b + 1 ≤ t.a)) = d := by
  have hsplit := List.pairwise_append.mp hA
  rw [List.filter_append]
  have h1 : b.filter (fun t => decide (lastA b + 1 ≤ t.a)) = [] := by
    rw [List.filter_eq_nil_iff]
    intro u hu
    have := lastA_ge b hsplit.1 u hu
    simp only [decide_eq_true_eq]
    omega
  have h2 : d.filter (fun t => decide (lastA b + 1 ≤ t.a)) = d := by
    rw [List.filter_eq_self]
    intro v hv
    obtain ⟨u, hu, he⟩ := lastA_mem b hb
    have := hsplit.2.2 u hu v hv
    simp only [decide_eq_true_eq]
    omega
  rw [h1, h2, List.nil_append]

theorem fetchLoop_spec (L : List RawTrade) (s e : Nat)
    (hA : List.Pairwise (fun x y => x.a < y.a) L)
    (hT : List.Pairwise (fun x y => x.T ≤ y.T) L) :
    ∀ (fuel lastId : Nat),
      (∀ t ∈ L, lastId + 1 ≤ t.a → s ≤ t.T) →
      (L.filter (fun t => decide (lastId + 1 ≤ t.a))).length < fuel →
      (fetchLoop L s e fuel lastId).1 =
        (L.filter (fun t => decide (lastId + 1 ≤ t.a))).filter
          (fun t => decide (t.T ≤ e)) := by
  intro fuel
  induction fuel with
  | zero => intro lastId _ hf; exact absurd hf (Nat.not_lt_zero _)
  | succ f ih =>
    intro lastId hs hf
    set R := L.filter (fun t => decide (lastId + 1 ≤ t.a)) with hRdef
    have hpage : pageFrom L (lastId + 1) = R.take 1000 := rfl
    by_cases hR : R = []
    · have hp2 : pageFrom L (lastId + 1) = [] := by rw [hpage, hR]; rfl
      simp only [fetchLoop, hp2, ite_true]
      rw [hR]
      rfl
    · have hbne : R.take 1000 ≠ [] := by
        intro hc
        apply hR
        have hlen0 := congrArg List.length hc
        rw [List.length_take] at hlen0
        simp only [List.length_nil] at hlen0
        exact List.eq_nil_of_length_eq_zero (by omega)
      have hRsub : List.Sublist R L := by rw [hRdef]; exact List.filter_sublist L
      have hAR : List.Pairwise (fun x y => x.a < y.a) R := List.Pairwise.sublist hRsub hA
      have hTR : List.Pairwise (fun x y => x.T ≤ y.T) R := List.Pairwise.sublist hRsub hT
      have hmemR : ∀ t ∈ R, lastId + 1 ≤ t.a ∧ t ∈ L := by
        intro t ht
        rw [hRdef] at ht
        have := List.mem_filter.mp ht
        exact ⟨by simpa using this.2, this.1⟩
      have hsb : ∀ t ∈ R.take 1000, s ≤ t.T := by
        intro t ht
        have hm := hmemR t (List.take_subset _ _ ht)
        exact hs t hm.2 hm.1
      have hAb : List.Pairwise (fun x y => x.a < y.a) (R.take 1000) :=
        List.Pairwise.sublist (List.take_sublist _ _) hAR
      have hTb : List.Pairwise (fun x y => x.T ≤ y.T) (R.take 1000) :=
        List.Pairwise.sublist (List.take_sublist _ _) hTR
      have hcoll := collectBatch_eq s e (R.take 1000) hsb hTb
      have hm : lastId + 1 ≤ lastA (R.take 1000) := by
        obtain ⟨u, hu, he⟩ := lastA_mem _ hbne
        have := (hmemR u (List.take_subset _ _ hu)).1
        omega
      have hstep : fetchLoop L s e (f + 1) lastId =
          if (R.take 1000).any (fun t => decide (e < t.T)) ||
              decide ((R.take 1000).length < 1000) then
            ((R.take 1000).filter (fun t => decide (t.T ≤ e)),
              [FetchReq.byId (lastId + 1)])
          else
            ((R.take 1000).filter (fun t => decide (t.T ≤ e)) ++
                (fetchLoop L s e f (lastA (R.take 1000))).1,
              FetchReq.byId (lastId + 1) ::
                (fetchLoop L s e f (lastA (R.take 1000))).2) := by
        simp only [fetchLoop, hpage]
        rw [if_neg hbne, hcoll]
      rw [hstep]
      by_cases hstop : ((R.take 1000).any (fun t => decide (e < t.T)) ||
          decide ((R.take 1000).length < 1000)) = true
      · rw [if_pos hstop]
        dsimp only
        conv_rhs => rw [← List.take_append_drop 1000 R]
        rw [List.filter_append]
        suffices hdrop : (R.drop 1000).filter (fun t => decide (t.T ≤ e)) = [] by
          rw [hdrop, List.append_nil]
        rcases Bool.or_eq_true_iff.mp hstop with hany | hlen
        · obtain ⟨u, hu, hue⟩ := List.any_eq_true.mp hany
          rw [decide_eq_true_eq] at hue
          rw [List.filter_eq_nil_iff]
          intro v hv
          have hT2 : List.Pairwise (fun x y => x.T ≤ y.T) (R.take 1000 ++ R.drop 1000) := by
            rw [List.take_append_drop]; exact hTR
          have hcross : u.T ≤ v.T := (List.pairwise_append.mp hT2).2.2 u hu v hv
          rw [decide_eq_true_eq]
          omega
        · rw [decide_eq_true_eq, List.length_take] at hlen
          have hdropnil : R.drop 1000 = [] := List.drop_eq_nil_of_le (by omega)
          rw [hdropnil]
          rfl
      · rw [if_neg hstop]
        dsimp only
        have hsf : ((R.take 1000).any (fun t => decide (e < t.T)) ||
            decide ((R.take 1000).length < 1000)) = false :=
          Bool.eq_false_iff.mpr hstop
        rcases Bool.or_eq_false_iff.mp hsf with ⟨hany, hlen⟩
        have hall : ∀ u ∈ R.take 1000, u.T ≤ e := by
          intro u hu
          have := List.any_eq_false.mp hany u hu
          rw [decide_eq_true_eq] at this
          omega
        have hfbatch : (R.take 1000).filter (fun t => decide (t.T ≤ e)) = R.take 1000 := by
          rw [List.filter_eq_self]
          intro u hu
          simpa using hall u hu
        have hlenb : 1000 ≤ R.length := by
          by_contra hcon
          push_neg at hcon
          have hsmall : (R.take 1000).length < 1000 := by
            rw [List.length_take]
            omega
          simp [hsmall] at hlen
          omega
        have hLR : L.filter (fun t => decide (lastA (R.take 1000) + 1 ≤ t.a)) =
            R.drop 1000 := by
          have hLF : L.filter (fun t => decide (lastA (R.take 1000) + 1 ≤ t.a)) =
              R.filter (fun t => decide (lastA (R.take 1000) + 1 ≤ t.a)) := by
            rw [hRdef, List.filter_filter]
            apply List.filter_congr
            intro t htL
            by_cases hta : lastA (R.take 1000) + 1 ≤ t.a
            · have h2 : lastId + 1 ≤ t.a := by omega
              simp [hta, h2]
            · simp [hta]
          rw [hLF]
          have hsplit := filter_after_last (R.take 1000) (R.drop 1000) hbne
            (by rw [List.take_append_drop]; exact hAR)
          calc R.filter (fun t => decide (lastA (R.take 1000) + 1 ≤ t.a))
              = (R.take 1000 ++ R.drop 1000).filter
                  (fun t => decide (lastA (R.take 1000) + 1 ≤ t.a)) := by
                rw [List.take_append_drop]
            _ = R.drop 1000 := hsplit
        have hs2 : ∀ t ∈ L, lastA (R.take 1000) + 1 ≤ t.a → s ≤ t.T := by
          intro t htL hge
          exact hs t htL (by omega)
        have hf2 : (L.filter (fun t => decide (lastA (R.take 1000) + 1 ≤ t.a))).length
            < f := by
          rw [hLR, List.length_drop]
          omega
        rw [hfbatch, ih (lastA (R.take 1000)) hs2 hf2, hLR]
        conv_rhs => rw [← List.take_append_drop 1000 R]
        rw [List.filter_append, hfbatch]

theorem fetchLoop_trace (L : List RawTrade) (s e : Nat) :
    ∀ (fuel lastId : Nat), ∀ r ∈ (fetchLoop L s e fuel lastId).2,
      ∃ fid, r = FetchReq.byId fid := by
  intro fuel
  induction fuel with
  | zero => intro lastId r hr; simp [fetchLoop] at hr
  | succ f ih =>
    intro lastId r hr
    simp only [fetchLoop] at hr
    by_cases hb : pageFrom L (lastId + 1) = []
    · rw [if_pos hb] at hr
      rw [List.mem_singleton] at hr
      exact ⟨lastId + 1, hr⟩
    · rw [if_neg hb] at hr
      by_cases hc : ((collectBatch s e (pageFrom L (lastId + 1))).2 ||
          decide ((pageFrom L (lastId + 1)).length < 1000)) = true
      · rw [if_pos hc] at hr
        rw [List.mem_singleton] at hr
        exact ⟨lastId + 1, hr⟩
      · rw [if_neg hc] at hr
        rcases List.mem_cons.mp hr with h1 | h2
        · exact ⟨lastId + 1, h1⟩
        · exact ih (lastA (pageFrom L (lastId + 1))) r h2

/-! ## Claim C3 -/

/-- Claim C3: over a ledger whose trade ids strictly increase and whose
event times are nondecreasing in ledger order (the aggTrades contract),
`fetch_agg_trades_window` returns exactly the ledger's trades with event
time in `[s, e]` — no in-window trade dropped, none duplicated — its
first request is the time-bounded one, and every subsequent request is a
trade-id continuation, never a time-bounded one.  (That continuation uses
`fromId = last seen id + 1` and stops exactly on an empty page, a trade
past the window end, or a short page is literal in the definition of
`fetchLoop`.) -/
theorem fetch_agg_trades_window_exact (L : List RawTrade) (s e : Nat)
    (hA : List.Pairwise (fun x y => x.a < y.a) L)
    (hT : List.Pairwise (fun x y => x.T ≤ y.T) L) :
    (fetch_agg_trades_window L s e).1 =
        L.filter (fun t => decide (s ≤ t.T) && decide (t.T ≤ e)) ∧
      (fetch_agg_trades_window L s e).2.head? = some (FetchReq.byTime s e) ∧
      ∀ r ∈ (fetch_agg_trades_window L s e).2.tail, ∃ fid, r = FetchReq.byId fid := by
  set W := L.filter (fun t => decide (s ≤ t.T) && decide (t.T ≤ e)) with hWdef
  have hpage : pageTime L s e = W.take 1000 := rfl
  by_cases hfb : W.take 1000 = []
  · have hW : W = [] := by
      have hlen0 := congrArg List.length hfb
      rw [List.length_take] at hlen0
      simp only [List.length_nil] at hlen0
      exact List.eq_nil_of_length_eq_zero (by omega)
    have hout : fetch_agg_trades_window L s e = ([], [FetchReq.byTime s e]) := by
      unfold fetch_agg_trades_window
      rw [hpage, hfb]
      simp
    rw [hout, hW]
    refine ⟨rfl, rfl, ?_⟩
    intro r hr
    simp at hr
  · have hout : fetch_agg_trades_window L s e =
        (W.take 1000 ++ (fetchLoop L s e (L.length + 1) (lastA (W.take 1000))).1,
          FetchReq.byTime s e ::
            (fetchLoop L s e (L.length + 1) (lastA (W.take 1000))).2) := by
      unfold fetch_agg_trades_window
      rw [hpage]
      rw [if_neg hfb]
    have hWsub : List.Sublist W L := by rw [hWdef]; exact List.filter_sublist L
    have hAW : List.Pairwise (fun x y => x.a < y.a) W := List.Pairwise.sublist hWsub hA
    have hmemW : ∀ t ∈ W, (s ≤ t.T ∧ t.T ≤ e) ∧ t ∈ L := by
      intro t ht
      rw [hWdef] at ht
      have h2 := List.mem_filter.mp ht
      have h3 := Bool.and_eq_true_iff.mp h2.2
      exact ⟨⟨by simpa using h3.1, by simpa using h3.2⟩, h2.1⟩
    obtain ⟨u0, hu0, hu0a⟩ := lastA_mem (W.take 1000) hfb
    have hu0W : u0 ∈ W := List.take_subset _ _ hu0
    have hs2 : ∀ t ∈ L, lastA (W.take 1000) + 1 ≤ t.a → s ≤ t.T := by
      intro t htL hge
      have hu0L : u0 ∈ L := (hmemW u0 hu0W).2
      have hu0T : s ≤ u0.T := (hmemW u0 hu0W).1.1
      have hcross : u0.T ≤ t.T :=
        mono_T_of_lt_a L hA hT u0 hu0L t htL (by omega)
      omega
    have hf2 : (L.filter
        (fun t => decide (lastA (W.take 1000) + 1 ≤ t.a))).length < L.length + 1 :=
      Nat.lt_succ_of_le (List.length_filter_le _ _)
    have hloop := fetchLoop_spec L s e hA hT (L.length + 1) (lastA (W.take 1000)) hs2 hf2
    have hW2 : W.drop 1000 =
        W.filter (fun t => decide (lastA (W.take 1000) + 1 ≤ t.a)) := by
      have hsplit := filter_after_last (W.take 1000) (W.drop 1000) hfb
        (by rw [List.take_append_drop]; exact hAW)
      calc W.drop 1000
          = (W.take 1000 ++ W.drop 1000).filter
              (fun t => decide (lastA (W.take 1000) + 1 ≤ t.a)) := hsplit.symm
        _ = W.filter (fun t => decide (lastA (W.take 1000) + 1 ≤ t.a)) := by
            rw [List.take_append_drop]
    have hkey : (L.filter (fun t => decide (lastA (W.take 1000) + 1 ≤ t.a))).filter
        (fun t => decide (t.T ≤ e)) = W.drop 1000 := by
      rw [List.filter_filter, hW2, hWdef, List.filter_filter]
      apply List.filter_congr
      intro t htL
      by_cases hta : lastA (W.take 1000) + 1 ≤ t.a
      · have hsT : s ≤ t.T := hs2 t htL hta
        by_cases hte : t.T ≤ e <;> simp [hta, hsT, hte]
      · simp [hta]
    refine ⟨?_, ?_, ?_⟩
    · rw [hout]
      show W.take 1000 ++ (fetchLoop L s e (L.length + 1) (lastA (W.take 1000))).1 = W
      rw [hloop, hkey]
      exact List.take_append_drop 1000 W
    · rw [hout]
      rfl
    · rw [hout]
      intro r hr
      exact fetchLoop_trace L s e (L.length + 1) (lastA (W.take 1000)) r hr

/-- Witness for C3: a three-trade ledger with one trade before, one
inside, and one after the window `[100, 200]`; the fetch returns exactly
the in-window trade, and the request trace is time-bounded first. -/
theorem fetch_agg_trades_window_exact_witness :
    (fetch_agg_trades_window
          [⟨1, 5, 1, 50, false⟩, ⟨2, 6, 1, 150, false⟩, ⟨3, 7, 1, 250, false⟩]
          100 200).1 =
        [⟨1, 5, 1, 50, false⟩, ⟨2, 6, 1, 150, false⟩,
            ⟨3, 7, 1, 250, false⟩].filter
          (fun t => decide (100 ≤ t.T) && decide (t.T ≤ 200)) ∧
      (fetch_agg_trades_window
          [⟨1, 5, 1, 50, false⟩, ⟨2, 6, 1, 150, false⟩, ⟨3, 7, 1, 250, false⟩]
          100 200).2.head? = some (FetchReq.byTime 100 200) ∧
      ∀ r ∈ (fetch_agg_trades_window
          [⟨1, 5, 1, 50, false⟩, ⟨2, 6, 1, 150, false⟩, ⟨3, 7, 1, 250, false⟩]
          100 200).2.tail, ∃ fid, r = FetchReq.byId fid :=
  fetch_agg_trades_window_exact
    [⟨1, 5, 1, 50, false⟩, ⟨2, 6, 1, 150, false⟩, ⟨3, 7, 1, 250, false⟩]
    100 200 (by decide) (by decide)

end Whaleflow
